import Mathlib

/-!
Verification of the Tenchu WoH container decompressor core
(`src/TenchuWoH_DeCompressor.cpp`).

The buffer is modelled as a `List Nat` of byte values; `size_t` arithmetic is
modelled over `Nat`, except where a wrap-around of the source's `size_t`
arithmetic is observable: the scan loop bound `n - 12` and the validator's
guard sum `startOffset + 12` are modelled explicitly modulo 2^64 (the first
is the short-buffer defect of claim C1, the second the overflow bypass that
refutes claim C2 as stated).  Reads are `Option`-valued: a `none` read models an out-of-bounds
buffer access (undefined behaviour in the C++ source), and is propagated to
the final result as the `oob` outcome.  The loops of the decoder, the
validator and the scanner are expressed as a step function plus a
fuel-indexed driver; the fuel bounds chosen in the wrappers are proved (or
provable) sufficient, so `fuelOut` is a model artifact that never occurs.
-/

namespace Tenchu

/-- Read one byte (returns `none` when the index is out of bounds). -/
def readU8 (buf : List Nat) (i : Nat) : Option Nat := buf[i]?

/-- Little-endian 16-bit read, as `*reinterpret_cast<const uint16_t*>(data + i)`. -/
def readU16LE (buf : List Nat) (i : Nat) : Option Nat :=
  match buf[i]?, buf[i + 1]? with
  | some b0, some b1 => some (b0 + 256 * b1)
  | _, _ => none

/-- Little-endian 32-bit read, as `*reinterpret_cast<const uint32_t*>(data + i)`. -/
def readU32LE (buf : List Nat) (i : Nat) : Option Nat :=
  match buf[i]?, buf[i + 1]?, buf[i + 2]?, buf[i + 3]? with
  | some b0, some b1, some b2, some b3 =>
      some (b0 + 256 * b1 + 65536 * b2 + 16777216 * b3)
  | _, _, _, _ => none

/-- Point update of the 4096-byte dictionary, `dict_buf[i] = v`. -/
def dwrite (d : Nat → Nat) (i v : Nat) : Nat → Nat :=
  fun j => if j = i then v else d j

/-- The byte-by-byte back-reference copy loop
`for (i = 0; i < length; i++) { b = dict_buf[(offset+i) & 0xFFF]; emit b;
dict_buf[dict_index] = b; dict_index = (dict_index+1) & 0xFFF; }`.
Returns the updated dictionary, the updated cursor and the emitted bytes
(in emission order).  The remaining iteration count is the last argument. -/
def copyN (dict : Nat → Nat) (di off i : Nat) : Nat → ((Nat → Nat) × Nat × List Nat)
  | 0 => (dict, di, [])
  | n + 1 =>
      let b := dict ((off + i) &&& 0xFFF)
      let r := copyN (dwrite dict di b) ((di + 1) &&& 0xFFF) off (i + 1) n
      (r.1, r.2.1, b :: r.2.2)

/-- State of the validator loop of `validateAndGetConsumedSize`:
flag cursor, literal cursor, pair cursor, dictionary, dictionary cursor,
decompressed-byte count, current flag word, current mask. -/
structure VSt where
  fp : Nat
  lp : Nat
  pp : Nat
  dict : Nat → Nat
  di : Nat
  ds : Nat
  fw : Nat
  mask : Nat

/-- How the validator loop stopped: flag stream ended without a terminator,
literal stream exhausted, pair stream exhausted, or a zero-offset terminator
pair was read (carrying the consumed size, i.e. the pair cursor right after
the terminator, and the decompressed-byte count). -/
inductive VStop where
  | flagsEnd : VStop
  | litEnd : VStop
  | pairEnd : VStop
  | term : Nat → Nat → VStop
deriving DecidableEq

/-- Result of one loop iteration: continue with a new state, stop with a
reason, or an out-of-bounds read happened. -/
inductive StepRes (σ α : Type) where
  | next : σ → StepRes σ α
  | stop : α → StepRes σ α
  | oobRead : StepRes σ α

/-- Result of a whole loop: stopped with a reason, performed an
out-of-bounds read, or ran out of fuel (a model artifact). -/
inductive LoopRes (α : Type) where
  | res : α → LoopRes α
  | oob : LoopRes α
  | fuelOut : LoopRes α
deriving DecidableEq

/-- Processing of one flag bit in the validator loop (the part of the C++
loop body after the flag-word reload).  `bit_set` selects a literal;
otherwise a pair is read: zero offset terminates, any other offset runs the
dictionary copy.  The mask has already been tested, so the successor state
stores `mask >>> 1`. -/
def vbitStep (buf : List Nat) (so ol op rem fp lp pp : Nat) (dict : Nat → Nat)
    (di ds fw mask : Nat) : StepRes VSt VStop :=
  if fw &&& mask ≠ 0 then
    if op ≤ lp then .stop .litEnd
    else
      match buf[so + lp]? with
      | none => .oobRead
      | some b =>
          .next ⟨fp, lp + 1, pp, dwrite dict di b, (di + 1) &&& 0xFFF, ds + 1, fw, mask >>> 1⟩
  else
    if rem < pp + 2 then .stop .pairEnd
    else
      match readU16LE buf (so + pp) with
      | none => .oobRead
      | some pv =>
          if pv >>> 4 = 0 then .stop (.term (pp + 2) ds)
          else
            let cp := copyN dict di (pv >>> 4) 0 ((pv &&& 0xF) + 2)
            .next ⟨fp, lp, pp + 2, cp.1, cp.2.1, ds + cp.2.2.length, fw, mask >>> 1⟩

/-- One iteration of the validator's `while (true)` loop: when the mask is
exhausted, stop if reloading would read past `off_literals`, otherwise
reload the flag word (the reloaded word is tested with mask `0x80000000`);
then process one flag bit. -/
def vstep (buf : List Nat) (so ol op rem : Nat) (s : VSt) : StepRes VSt VStop :=
  if s.mask = 0 then
    if ol < s.fp + 4 then .stop .flagsEnd
    else
      match readU32LE buf (so + s.fp) with
      | none => .oobRead
      | some w => vbitStep buf so ol op rem (s.fp + 4) s.lp s.pp s.dict s.di s.ds w 0x80000000
  else vbitStep buf so ol op rem s.fp s.lp s.pp s.dict s.di s.ds s.fw s.mask

/-- Fuel-indexed driver of the validator loop. -/
def vloop (buf : List Nat) (so ol op rem : Nat) : Nat → VSt → LoopRes VStop
  | 0, _ => .fuelOut
  | fuel + 1, s =>
      match vstep buf so ol op rem s with
      | .next t => vloop buf so ol op rem fuel t
      | .stop r => .res r
      | .oobRead => .oob

/-- Validator verdict, as `struct DecompressValidationResult`. -/
structure DecompressValidationResult where
  success : Bool
  consumedBytes : Nat
  decompressedSize : Nat
deriving DecidableEq

/-- The validator loop of `validateAndGetConsumedSize buf so`, started from
the initial state of the C++ code: `flags_pos = 8`, `lit_pos = off_literals`,
`pair_pos = off_pairs`, all-zero dictionary, `dict_index = 1`, zero count,
zero flag word and zero mask.  The fuel `(buf.length + 5) * 2^31` strictly
dominates the loop measure, so `fuelOut` is unreachable. -/
def vRun (buf : List Nat) (so ol op : Nat) : LoopRes VStop :=
  vloop buf so ol op (buf.length - so) ((buf.length + 5) * 2147483648)
    ⟨8, ol, op, fun _ => 0, 1, 0, 0, 0⟩

/-- The validator `validateAndGetConsumedSize(fileBuffer, startOffset)`:
header presence check, the two little-endian header words, the sanity
pre-check `8 <= ol <= rem && 8 <= op <= rem && op >= ol`, then the decode
loop; only an explicit terminator yields success, and every failure path
returns `{false, 0, 0}`.  A `none` result models an out-of-bounds access.
The guard sum `startOffset + 12` is computed in `size_t` by the source, so
it is taken modulo 2^64 here: for `startOffset ≥ 2^64 - 12` it wraps, the
guard passes, and the header reads go out of bounds. -/
def validateAndGetConsumedSize (fileBuffer : List Nat) (startOffset : Nat) :
    Option DecompressValidationResult :=
  if fileBuffer.length < (startOffset + 12) % 18446744073709551616 then some ⟨false, 0, 0⟩
  else
    match readU32LE fileBuffer startOffset, readU32LE fileBuffer (startOffset + 4) with
    | some ol, some op =>
        if 8 ≤ ol ∧ ol ≤ fileBuffer.length - startOffset ∧
            8 ≤ op ∧ op ≤ fileBuffer.length - startOffset ∧ ol ≤ op then
          match vRun fileBuffer startOffset ol op with
          | .res (.term c d) => some ⟨true, c, d⟩
          | .res _ => some ⟨false, 0, 0⟩
          | .oob => none
          | .fuelOut => none
        else some ⟨false, 0, 0⟩
    | _, _ => none

/-- State of the decoder loop of `decompressLZSSBlock` (same as the
validator state, but accumulating the output bytes instead of a count). -/
structure DSt where
  fp : Nat
  lp : Nat
  pp : Nat
  dict : Nat → Nat
  di : Nat
  out : List Nat
  fw : Nat
  mask : Nat

/-- How the decoder loop stopped.  `flagsEnd diag out` is the clean
end-of-flag-stream exit (`diag` records whether the premature-end warning
`flags_pos < off_literals` was printed); `term out` is the zero-offset
terminator exit; `litErr` and `pairErr` are the two `throw` sites. -/
inductive DStop where
  | flagsEnd : Bool → List Nat → DStop
  | litErr : DStop
  | pairErr : DStop
  | term : List Nat → DStop
deriving DecidableEq

/-- Processing of one flag bit in the decoder loop.  Identical state machine
to `vbitStep` except that exhaustion throws (`litErr` / `pairErr`), the pair
stream is bounded by the block length, and emitted bytes are appended to the
output. -/
def dbitStep (block : List Nat) (ol op fp lp pp : Nat) (dict : Nat → Nat)
    (di : Nat) (out : List Nat) (fw mask : Nat) : StepRes DSt DStop :=
  if fw &&& mask ≠ 0 then
    if op ≤ lp then .stop .litErr
    else
      match block[lp]? with
      | none => .oobRead
      | some b =>
          .next ⟨fp, lp + 1, pp, dwrite dict di b, (di + 1) &&& 0xFFF, out ++ [b], fw, mask >>> 1⟩
  else
    if block.length < pp + 2 then .stop .pairErr
    else
      match readU16LE block pp with
      | none => .oobRead
      | some pv =>
          if pv >>> 4 = 0 then .stop (.term out)
          else
            let cp := copyN dict di (pv >>> 4) 0 ((pv &&& 0xF) + 2)
            .next ⟨fp, lp, pp + 2, cp.1, cp.2.1, out ++ cp.2.2, fw, mask >>> 1⟩

/-- One iteration of the decoder's `while (true)` loop. -/
def dstep (block : List Nat) (ol op : Nat) (s : DSt) : StepRes DSt DStop :=
  if s.mask = 0 then
    if ol < s.fp + 4 then .stop (.flagsEnd (decide (s.fp < ol)) s.out)
    else
      match readU32LE block s.fp with
      | none => .oobRead
      | some w => dbitStep block ol op (s.fp + 4) s.lp s.pp s.dict s.di s.out w 0x80000000
  else dbitStep block ol op s.fp s.lp s.pp s.dict s.di s.out s.fw s.mask

/-- Fuel-indexed driver of the decoder loop. -/
def dloop (block : List Nat) (ol op : Nat) : Nat → DSt → LoopRes DStop
  | 0, _ => .fuelOut
  | fuel + 1, s =>
      match dstep block ol op s with
      | .next t => dloop block ol op fuel t
      | .stop r => .res r
      | .oobRead => .oob

/-- The decoder loop of `decompressLZSSBlock block`, started from the
initial state of the C++ code: `flags_pos = 8`, `lit_pos = off_literals`,
`pair_pos = off_pairs`, all-zero dictionary, `dict_index = 1`, empty output,
zero flag word and zero mask. -/
def dRun (block : List Nat) (ol op : Nat) : LoopRes DStop :=
  dloop block ol op ((block.length + 5) * 2147483648) ⟨8, ol, op, fun _ => 0, 1, [], 0, 0⟩

/-- Observable outcome of `decompressLZSSBlock`: the output bytes, a thrown
`std::runtime_error` (the malformed-block failure) with its message, an
out-of-bounds access, or fuel exhaustion (both of the last two are model
artifacts that never occur for the decoder's guarded reads). -/
inductive DecodeOutcome where
  | ok : List Nat → DecodeOutcome
  | malformed : String → DecodeOutcome
  | oobAccess : DecodeOutcome
  | noFuel : DecodeOutcome
deriving DecidableEq

/-- The decoder `decompressLZSSBlock(block)`: minimum-size check, header
words, header sanity check, then the decode loop; `flagsEnd` and `term` are
the two clean exits, `litErr` and `pairErr` are the two throw sites. -/
def decompressLZSSBlock (block : List Nat) : DecodeOutcome :=
  if block.length < 12 then .malformed "Bloco pequeno demais para conter o header LZSS"
  else
    match readU32LE block 0, readU32LE block 4 with
    | some ol, some op =>
        if block.length ≤ ol ∨ block.length ≤ op ∨ ol < 8 then
          .malformed "Offsets invalidos no header"
        else
          match dRun block ol op with
          | .res (.flagsEnd _ out) => .ok out
          | .res (.term out) => .ok out
          | .res .litErr => .malformed "Stream de literais acabou prematuramente"
          | .res .pairErr => .malformed "Stream de pares acabou prematuramente"
          | .oob => .oobAccess
          | .fuelOut => .noFuel
    | _, _ => .oobAccess

/-- Scanner hit, as `struct ScanResult`. -/
structure ScanResult where
  offset : Nat
  consumedSize : Nat
  decompressedSize : Nat
deriving DecidableEq

/-- The sort order of `ScanResult::operator<` turned into a total preorder
(`a ≤ b` iff `¬(b < a)`): ascending offset, ties broken by descending
consumed size. -/
def scanResultLE (a b : ScanResult) : Bool :=
  decide (a.offset < b.offset ∨ (a.offset = b.offset ∧ b.consumedSize ≤ a.consumedSize))

/-- Insertion of one element into a list sorted by `scanResultLE`. -/
def insertSorted (r : ScanResult) : List ScanResult → List ScanResult
  | [] => [r]
  | x :: xs => if scanResultLE r x then r :: x :: xs else x :: insertSorted r xs

/-- Deterministic model of `std::sort(results.begin(), results.end())` with
`ScanResult::operator<`: a permutation of the input sorted by
`scanResultLE` (insertion sort). -/
def sortResults : List ScanResult → List ScanResult
  | [] => []
  | x :: xs => insertSorted x (sortResults xs)

/-- The overlap test of the dedup pass: `r` (with half-open interval
`[off, e)`) overlaps some kept range `k` iff `!(e <= k.first || off >= k.second)`. -/
def overlapsKept (off e : Nat) (kept : List (Nat × Nat)) : Bool :=
  kept.any (fun k => decide (¬(e ≤ k.1 ∨ k.2 ≤ off)))

/-- The greedy dedup pass of `scanContainer`: walk the sorted candidates,
keep each candidate whose interval overlaps no kept range, recording both
the range and the final result in acceptance order. -/
def dedup : List ScanResult → List (Nat × Nat) → List ScanResult → List ScanResult
  | [], _, final => final
  | r :: rest, kept, final =>
      if overlapsKept r.offset (r.offset + r.consumedSize) kept then dedup rest kept final
      else dedup rest (kept ++ [(r.offset, r.offset + r.consumedSize)]) (final ++ [r])

/-- The candidate-enumeration loop of `scanContainer`:
`for (size_t off = 0; off <= n - 12; off += 4)` with the cheap plausibility
pre-check, the full validation, and collection of successful candidates with
`consumedBytes > 0`.  `bound` is the (possibly wrapped-around) value of
`n - 12`; the header reads happen before any bounds check, so they can go
out of bounds (`oob`). -/
def scanLoop (buf : List Nat) (n bound : Nat) : Nat → Nat → List ScanResult → LoopRes (List ScanResult)
  | 0, _, _ => .fuelOut
  | fuel + 1, off, acc =>
      if bound < off then .res acc
      else
        match readU32LE buf off, readU32LE buf (off + 4) with
        | some ol, some orf =>
            if 8 ≤ ol ∧ ol ≤ n - off ∧ 8 ≤ orf ∧ orf ≤ n - off ∧ ol ≤ orf then
              match validateAndGetConsumedSize buf off with
              | some r =>
                  if r.success = true ∧ 0 < r.consumedBytes then
                    scanLoop buf n bound fuel (off + 4) (acc ++ [⟨off, r.consumedBytes, r.decompressedSize⟩])
                  else scanLoop buf n bound fuel (off + 4) acc
              | none => .oob
            else scanLoop buf n bound fuel (off + 4) acc
        | _, _ => .oob

/-- The scanner `scanContainer(fileBuffer)`.  The loop bound is the `size_t`
value of `n - 12`, which wraps around modulo 2^64 when `n < 12` (this is the
short-buffer defect: the loop is then entered and reads out of bounds).
After enumeration the candidates are sorted and deduplicated. -/
def scanContainer (fileBuffer : List Nat) : Option (List ScanResult) :=
  match scanLoop fileBuffer fileBuffer.length
      ((fileBuffer.length + (18446744073709551616 - 12)) % 18446744073709551616)
      (fileBuffer.length / 4 + 2) 0 [] with
  | .res results => some (dedup (sortResults results) [] [])
  | .oob => none
  | .fuelOut => none

/-- The claim-side dictionary copy, written from the words of the spec:
read from `(offset + i) mod 4096` for `i` in `[0, length)`, write each read
byte back at the cursor before the next read, advance the cursor modulo
4096. -/
def specDictCopy (dict : Nat → Nat) (cursor off i : Nat) : Nat → ((Nat → Nat) × Nat × List Nat)
  | 0 => (dict, cursor, [])
  | n + 1 =>
      let b := dict ((off + i) % 4096)
      let r := specDictCopy (fun j => if j = cursor then b else dict j) ((cursor + 1) % 4096) off (i + 1) n
      (r.1, r.2.1, b :: r.2.2)

/-- A 14-byte buffer holding one minimal valid block: header
`off_literals = off_pairs = 12`, one all-zero flag word, and a terminator
pair as the very first pair; it validates with `consumed = 14` and
`decompressed = 0`. -/
def buf14 : List Nat := [12, 0, 0, 0, 12, 0, 0, 0, 0, 0, 0, 0, 0, 0]

/-- A 17-byte block: one literal `0x41`, then a back-reference with
dictionary offset 1 and length 3 (a self-referential overlapping copy),
then the terminator. -/
def block17 : List Nat := [12, 0, 0, 0, 13, 0, 0, 0, 0, 0, 0, 0x80, 0x41, 0x11, 0, 0, 0]

/-- A 16-byte block whose single effective code is a back-reference into the
untouched dictionary (offset 2, length 2), then the terminator: the output
must be two zero bytes, witnessing the all-zero initial dictionary. -/
def blockZ : List Nat := [12, 0, 0, 0, 12, 0, 0, 0, 0, 0, 0, 0, 0x20, 0, 0, 0]

/-- A 45-byte block with a single all-ones flag word and 32 literals: the
flag stream ends exactly when the mask is exhausted, so the decoder stops
cleanly (no terminator pair is ever read). -/
def block45 : List Nat :=
  [12, 0, 0, 0, 44, 0, 0, 0, 0xFF, 0xFF, 0xFF, 0xFF] ++ List.replicate 32 65 ++ [0]

/-- Loop measure for the validator loop: the flag cursor can advance at most
to `off_literals` and the mask halves at every non-reload step. -/
def vMeasure (ol : Nat) (s : VSt) : Nat := (ol + 4 - s.fp) * 2147483648 + s.mask

/-- Loop measure for the decoder loop (same shape as `vMeasure`). -/
def dMeasure (ol : Nat) (s : DSt) : Nat := (ol + 4 - s.fp) * 2147483648 + s.mask

/-! Helper lemmas: reads. -/

/-- A 32-bit read succeeds whenever its four bytes are in bounds. -/
lemma readU32LE_isSome (buf : List Nat) (i : Nat) (h : i + 4 ≤ buf.length) :
    ∃ w, readU32LE buf i = some w := by
  unfold readU32LE
  have h0 : i < buf.length := by omega
  have h1 : i + 1 < buf.length := by omega
  have h2 : i + 2 < buf.length := by omega
  have h3 : i + 3 < buf.length := by omega
  simp [List.getElem?_eq_getElem, h0, h1, h2, h3]

/-- Byte agreement between the consumed slice and the full buffer. -/
lemma getElem?_slice (buf : List Nat) (so c i : Nat) (hic : i < c) :
    ((buf.drop so).take c)[i]? = buf[so + i]? := by
  rw [List.getElem?_take_of_lt hic, List.getElem?_drop]

/-- 16-bit read agreement between the consumed slice and the full buffer. -/
lemma readU16LE_slice (buf : List Nat) (so c i : Nat) (hic : i + 2 ≤ c) :
    readU16LE ((buf.drop so).take c) i = readU16LE buf (so + i) := by
  unfold readU16LE
  rw [getElem?_slice buf so c i (by omega), getElem?_slice buf so c (i + 1) (by omega)]
  have : so + i + 1 = so + (i + 1) := by omega
  rw [this]

/-- 32-bit read agreement between the consumed slice and the full buffer. -/
lemma readU32LE_slice (buf : List Nat) (so c i : Nat) (hic : i + 4 ≤ c) :
    readU32LE ((buf.drop so).take c) i = readU32LE buf (so + i) := by
  unfold readU32LE
  rw [getElem?_slice buf so c i (by omega), getElem?_slice buf so c (i + 1) (by omega),
    getElem?_slice buf so c (i + 2) (by omega), getElem?_slice buf so c (i + 3) (by omega)]
  have e1 : so + i + 1 = so + (i + 1) := by omega
  have e2 : so + i + 2 = so + (i + 2) := by omega
  have e3 : so + i + 3 = so + (i + 3) := by omega
  rw [e1, e2, e3]

/-! Helper lemmas: the validator loop terminates and stays in bounds. -/

/-- Fields of a successor state of `vbitStep`: the flag cursor is unchanged,
the mask is halved, and the pair cursor advances by at most 2. -/
lemma vbitStep_next_fields {buf : List Nat} {so ol op rem fp lp pp : Nat} {dict : Nat → Nat}
    {di ds fw mask : Nat} {t : VSt}
    (h : vbitStep buf so ol op rem fp lp pp dict di ds fw mask = .next t) :
    t.fp = fp ∧ t.mask = mask >>> 1 ∧ pp ≤ t.pp := by
  unfold vbitStep at h
  split at h
  · split at h
    · exact absurd h (by simp)
    · split at h
      · exact absurd h (by simp)
      · rename_i b heq
        injection h with h
        subst h
        exact ⟨rfl, rfl, Nat.le_refl _⟩
  · split at h
    · exact absurd h (by simp)
    · split at h
      · exact absurd h (by simp)
      · rename_i pv heq
        split at h
        · exact absurd h (by simp)
        · injection h with h
          subst h
          exact ⟨rfl, rfl, Nat.le_add_right pp 2⟩

/-- One validator step strictly decreases the measure. -/
lemma vstep_next_measure {buf : List Nat} {so ol op rem : Nat} {s t : VSt}
    (h : vstep buf so ol op rem s = .next t) : vMeasure ol t < vMeasure ol s := by
  unfold vstep at h
  split at h
  · rename_i hm
    split at h
    · exact absurd h (by simp)
    · rename_i hfp
      split at h
      · exact absurd h (by simp)
      · rename_i w heq
        obtain ⟨h1, h2, _⟩ := vbitStep_next_fields h
        have hmask : t.mask = 1073741824 := by rw [h2]; decide
        unfold vMeasure
        rw [h1, hmask, hm]
        omega
  · rename_i hm
    obtain ⟨h1, h2, _⟩ := vbitStep_next_fields h
    have hlt : s.mask >>> 1 < s.mask := by
      rw [Nat.shiftRight_eq_div_pow]
      exact Nat.div_lt_self (Nat.pos_of_ne_zero hm) (by omega)
    unfold vMeasure
    rw [h1, h2]
    omega

/-- With fuel above the measure the validator driver cannot run out. -/
lemma vloop_no_fuelOut {buf : List Nat} {so ol op rem : Nat} :
    ∀ fuel (s : VSt), vMeasure ol s < fuel →
      vloop buf so ol op rem fuel s ≠ .fuelOut := by
  intro fuel
  induction fuel with
  | zero => intro s h; omega
  | succ n ih =>
      intro s h
      unfold vloop
      cases hstep : vstep buf so ol op rem s with
      | next t =>
          have := vstep_next_measure hstep
          exact ih t (by omega)
      | stop r => simp
      | oobRead => simp

/-- All reads of `vbitStep` are guarded, so it never goes out of bounds. -/
lemma vbitStep_no_oob {buf : List Nat} {so ol op rem fp lp pp : Nat} {dict : Nat → Nat}
    {di ds fw mask : Nat} (hop : op ≤ rem) (hbuf : so + rem ≤ buf.length) :
    vbitStep buf so ol op rem fp lp pp dict di ds fw mask ≠ .oobRead := by
  unfold vbitStep
  split
  · split
    · simp
    · rename_i hlp
      have hlt : so + lp < buf.length := by omega
      rw [List.getElem?_eq_getElem hlt]
      simp
  · split
    · simp
    · rename_i hpp
      obtain ⟨w, hw⟩ : ∃ w, readU16LE buf (so + pp) = some w := by
        unfold readU16LE
        have h0 : so + pp < buf.length := by omega
        have h1 : so + pp + 1 < buf.length := by omega
        simp [List.getElem?_eq_getElem, h0, h1]
      rw [hw]
      split
      · simp_all
      · split <;> simp

/-- All reads of `vstep` are guarded, so it never goes out of bounds. -/
lemma vstep_no_oob {buf : List Nat} {so ol op rem : Nat} {s : VSt}
    (hol : ol ≤ rem) (hop : op ≤ rem) (hbuf : so + rem ≤ buf.length) :
    vstep buf so ol op rem s ≠ .oobRead := by
  unfold vstep
  split
  · split
    · simp
    · rename_i hfp
      obtain ⟨w, hw⟩ : ∃ w, readU32LE buf (so + s.fp) = some w :=
        readU32LE_isSome buf (so + s.fp) (by omega)
      rw [hw]
      exact vbitStep_no_oob hop hbuf
  · exact vbitStep_no_oob hop hbuf

/-- The validator loop never performs an out-of-bounds read. -/
lemma vloop_no_oob {buf : List Nat} {so ol op rem : Nat}
    (hol : ol ≤ rem) (hop : op ≤ rem) (hbuf : so + rem ≤ buf.length) :
    ∀ fuel (s : VSt), vloop buf so ol op rem fuel s ≠ .oob := by
  intro fuel
  induction fuel with
  | zero => intro s; unfold vloop; simp
  | succ n ih =>
      intro s
      unfold vloop
      cases hstep : vstep buf so ol op rem s with
      | next t => exact ih t
      | stop r => simp
      | oobRead => exact absurd hstep (vstep_no_oob hol hop hbuf)

/-! Helper lemmas: how the loop stops, and bounds carried by a terminator. -/

/-- A terminator stop of `vbitStep` carries the pair cursor right after the
terminator pair and the running count, and its read was within `rem`. -/
lemma vbitStep_stop_term {buf : List Nat} {so ol op rem fp lp pp : Nat} {dict : Nat → Nat}
    {di ds fw mask c d : Nat}
    (h : vbitStep buf so ol op rem fp lp pp dict di ds fw mask = .stop (.term c d)) :
    c = pp + 2 ∧ d = ds ∧ pp + 2 ≤ rem := by
  unfold vbitStep at h
  split at h
  · split at h
    · simp at h
    · split at h <;> simp at h
  · split at h
    · simp at h
    · split at h
      · simp at h
      · split at h
        · rename_i hpp _ _ _
          injection h with h
          injection h with hc hd
          exact ⟨hc.symm, hd.symm, by omega⟩
        · simp at h

/-- A terminator stop of `vstep`, in terms of the loop state. -/
lemma vstep_stop_term {buf : List Nat} {so ol op rem : Nat} {s : VSt} {c d : Nat}
    (h : vstep buf so ol op rem s = .stop (.term c d)) :
    c = s.pp + 2 ∧ d = s.ds ∧ s.pp + 2 ≤ rem := by
  unfold vstep at h
  split at h
  · split at h
    · simp at h
    · split at h
      · simp at h
      · exact vbitStep_stop_term h
  · exact vbitStep_stop_term h

/-- The pair cursor never moves backwards. -/
lemma vstep_next_pp {buf : List Nat} {so ol op rem : Nat} {s t : VSt}
    (h : vstep buf so ol op rem s = .next t) : s.pp ≤ t.pp := by
  unfold vstep at h
  split at h
  · split at h
    · simp at h
    · split at h
      · simp at h
      · exact (vbitStep_next_fields h).2.2
  · exact (vbitStep_next_fields h).2.2

/-- If the validator loop reaches a terminator, the reported consumed size
lies after the current pair cursor and within the remaining buffer. -/
lemma vloop_term_bounds {buf : List Nat} {so ol op rem : Nat} :
    ∀ fuel (s : VSt) (c d : Nat),
      vloop buf so ol op rem fuel s = .res (.term c d) → s.pp + 2 ≤ c ∧ c ≤ rem := by
  intro fuel
  induction fuel with
  | zero => intro s c d h; simp [vloop] at h
  | succ n ih =>
      intro s c d h
      unfold vloop at h
      cases hstep : vstep buf so ol op rem s with
      | next t =>
          rw [hstep] at h
          have := ih t c d h
          have := vstep_next_pp hstep
          omega
      | stop r =>
          rw [hstep] at h
          simp at h
          subst h
          obtain ⟨hc, _, hr⟩ := vstep_stop_term hstep
          omega
      | oobRead => rw [hstep] at h; simp at h

/-- A successful validator run forces `off_literals ≥ 12` (the very first
iteration must reload a flag word, since the initial mask is zero). -/
lemma vRun_term_ol {buf : List Nat} {so ol op c d : Nat}
    (h : vRun buf so ol op = .res (.term c d)) : 12 ≤ ol := by
  by_contra hol
  obtain ⟨k, hk⟩ : ∃ k, (buf.length + 5) * 2147483648 = k + 1 :=
    ⟨(buf.length + 5) * 2147483648 - 1, by omega⟩
  unfold vRun at h
  rw [hk] at h
  have hstep : vstep buf so ol op (buf.length - so) ⟨8, ol, op, fun _ => 0, 1, 0, 0, 0⟩ =
      .stop .flagsEnd := by
    have h12 : ol < 8 + 4 := by omega
    simp [vstep, h12]
  simp only [vloop, hstep] at h
  simp at h

/-- Inversion of a successful validation: the header checks passed and the
loop reached a terminator, with the bounds the terminator carries. -/
lemma validate_success {buf : List Nat} {so : Nat} {r : DecompressValidationResult}
    (h : validateAndGetConsumedSize buf so = some r) (hs : r.success = true) :
    ∃ ol op, so + 12 ≤ buf.length ∧
      readU32LE buf so = some ol ∧ readU32LE buf (so + 4) = some op ∧
      12 ≤ ol ∧ ol ≤ op ∧ op ≤ buf.length - so ∧
      vRun buf so ol op = .res (.term r.consumedBytes r.decompressedSize) ∧
      op + 2 ≤ r.consumedBytes ∧ r.consumedBytes ≤ buf.length - so := by
  unfold validateAndGetConsumedSize at h
  by_cases hlen : buf.length < (so + 12) % 18446744073709551616
  · rw [if_pos hlen] at h
    injection h with h
    rw [← h] at hs
    simp at hs
  · rw [if_neg hlen] at h
    cases hol : readU32LE buf so with
    | none => rw [hol] at h; simp at h
    | some ol =>
        rw [hol] at h
        cases hop : readU32LE buf (so + 4) with
        | none => rw [hop] at h; simp at h
        | some op =>
            rw [hop] at h
            simp only at h
            by_cases hpre : 8 ≤ ol ∧ ol ≤ buf.length - so ∧ 8 ≤ op ∧
                op ≤ buf.length - so ∧ ol ≤ op
            · rw [if_pos hpre] at h
              obtain ⟨hp1, hp2, hp3, hp4, hp5⟩ := hpre
              cases hrun : vRun buf so ol op with
              | res v =>
                  rw [hrun] at h
                  cases v with
                  | term c d =>
                      simp only [Option.some.injEq] at h
                      rw [← h] at hs ⊢
                      have h12ol := vRun_term_ol hrun
                      have hb := vloop_term_bounds _ _ c d hrun
                      simp only at hb
                      refine ⟨ol, op, by omega, rfl, rfl, h12ol, hp5, hp4, hrun, ?_⟩
                      simpa using hb
                  | flagsEnd =>
                      simp only [Option.some.injEq] at h
                      rw [← h] at hs
                      simp at hs
                  | litEnd =>
                      simp only [Option.some.injEq] at h
                      rw [← h] at hs
                      simp at hs
                  | pairEnd =>
                      simp only [Option.some.injEq] at h
                      rw [← h] at hs
                      simp at hs
              | oob => rw [hrun] at h; simp at h
              | fuelOut => rw [hrun] at h; simp at h
            · rw [if_neg hpre] at h
              injection h with h
              rw [← h] at hs
              simp at hs

/-- Claim C2 counterexample: the claim quantifies over every start offset,
but the source computes the guard sum `startOffset + 12` in `size_t`.  At
`startOffset = 2^64 - 1` against a 100-byte buffer the sum wraps to 11, the
guard passes, and the header read at `data + startOffset` is out of bounds
(the model's `none`), so the validator does read outside the buffer and
returns no `{ok, sizes}` verdict at this offset. -/
theorem c2_overflow_counterexample :
    validateAndGetConsumedSize (List.replicate 100 0) 18446744073709551615 = none ∧
    ¬ ∃ r, validateAndGetConsumedSize (List.replicate 100 0) 18446744073709551615 = some r ∧
      (r.success = true ∨ r = ⟨false, 0, 0⟩) := by
  have hnone : validateAndGetConsumedSize (List.replicate 100 0) 18446744073709551615 = none := by
    decide
  refine ⟨hnone, ?_⟩
  rintro ⟨r, hr, _⟩
  rw [hnone] at hr
  exact Option.noConfusion hr

/-- Claim C2, amended: for every buffer and every start offset whose guard
sum `startOffset + 12` does not overflow `size_t` (every offset up to
`2^64 - 13`, so in particular every offset inside any real buffer), the
validator returns a result — it never reads out of bounds and never raises —
and any failure is reported as `ok = false` with both sizes zero. -/
theorem c2_validator_total_safe (buf : List Nat) (so : Nat)
    (hso : so + 12 < 18446744073709551616) :
    ∃ r, validateAndGetConsumedSize buf so = some r ∧
      (r.success = true ∨ r = ⟨false, 0, 0⟩) := by
  have hmod : (so + 12) % 18446744073709551616 = so + 12 := Nat.mod_eq_of_lt hso
  unfold validateAndGetConsumedSize
  rw [hmod]
  by_cases hlen : buf.length < so + 12
  · rw [if_pos hlen]
    exact ⟨⟨false, 0, 0⟩, rfl, Or.inr rfl⟩
  · rw [if_neg hlen]
    obtain ⟨ol, hol⟩ := readU32LE_isSome buf so (by omega)
    obtain ⟨op, hop⟩ := readU32LE_isSome buf (so + 4) (by omega)
    rw [hol, hop]
    simp only
    by_cases hpre : 8 ≤ ol ∧ ol ≤ buf.length - so ∧ 8 ≤ op ∧ op ≤ buf.length - so ∧ ol ≤ op
    · rw [if_pos hpre]
      obtain ⟨hp1, hp2, hp3, hp4, hp5⟩ := hpre
      cases hrun : vRun buf so ol op with
      | res v =>
          cases v with
          | term c d => exact ⟨⟨true, c, d⟩, rfl, Or.inl rfl⟩
          | flagsEnd => exact ⟨⟨false, 0, 0⟩, rfl, Or.inr rfl⟩
          | litEnd => exact ⟨⟨false, 0, 0⟩, rfl, Or.inr rfl⟩
          | pairEnd => exact ⟨⟨false, 0, 0⟩, rfl, Or.inr rfl⟩
      | oob =>
          unfold vRun at hrun
          exact absurd hrun (vloop_no_oob hp2 hp4 (by omega) _ _)
      | fuelOut =>
          unfold vRun at hrun
          refine absurd hrun (vloop_no_fuelOut _ _ ?_)
          unfold vMeasure
          simp only
          omega
    · rw [if_neg hpre]
      exact ⟨⟨false, 0, 0⟩, rfl, Or.inr rfl⟩

/-- Claim C2 amended witness: offset 0 on the empty buffer. -/
theorem c2_witness :
    ∃ r, validateAndGetConsumedSize [] 0 = some r ∧
      (r.success = true ∨ r = ⟨false, 0, 0⟩) :=
  c2_validator_total_safe [] 0 (by decide)

/-! Helper lemmas: the decoder loop terminates, and ignores extra fuel. -/

/-- Fields of a successor state of `dbitStep`. -/
lemma dbitStep_next_fields {block : List Nat} {ol op fp lp pp : Nat} {dict : Nat → Nat}
    {di : Nat} {out : List Nat} {fw mask : Nat} {t : DSt}
    (h : dbitStep block ol op fp lp pp dict di out fw mask = .next t) :
    t.fp = fp ∧ t.mask = mask >>> 1 := by
  unfold dbitStep at h
  split at h
  · split at h
    · exact absurd h (by simp)
    · split at h
      · exact absurd h (by simp)
      · injection h with h
        subst h
        exact ⟨rfl, rfl⟩
  · split at h
    · exact absurd h (by simp)
    · split at h
      · exact absurd h (by simp)
      · split at h
        · exact absurd h (by simp)
        · injection h with h
          subst h
          exact ⟨rfl, rfl⟩

/-- One decoder step strictly decreases the measure. -/
lemma dstep_next_measure {block : List Nat} {ol op : Nat} {s t : DSt}
    (h : dstep block ol op s = .next t) : dMeasure ol t < dMeasure ol s := by
  unfold dstep at h
  split at h
  · rename_i hm
    split at h
    · exact absurd h (by simp)
    · rename_i hfp
      split at h
      · exact absurd h (by simp)
      · rename_i w heq
        obtain ⟨h1, h2⟩ := dbitStep_next_fields h
        have hmask : t.mask = 1073741824 := by rw [h2]; decide
        unfold dMeasure
        rw [h1, hmask, hm]
        omega
  · rename_i hm
    obtain ⟨h1, h2⟩ := dbitStep_next_fields h
    have hlt : s.mask >>> 1 < s.mask := by
      rw [Nat.shiftRight_eq_div_pow]
      exact Nat.div_lt_self (Nat.pos_of_ne_zero hm) (by omega)
    unfold dMeasure
    rw [h1, h2]
    omega

/-- With fuel above the measure the decoder driver cannot run out. -/
lemma dloop_no_fuelOut {block : List Nat} {ol op : Nat} :
    ∀ fuel (s : DSt), dMeasure ol s < fuel →
      dloop block ol op fuel s ≠ .fuelOut := by
  intro fuel
  induction fuel with
  | zero => intro s h; omega
  | succ n ih =>
      intro s h
      unfold dloop
      cases hstep : dstep block ol op s with
      | next t =>
          have := dstep_next_measure hstep
          exact ih t (by omega)
      | stop r => simp
      | oobRead => simp

/-- A decoder run that does not run out of fuel gives the same result with
any larger fuel. -/
lemma dloop_mono {block : List Nat} {ol op : Nat} :
    ∀ f g (s : DSt), f ≤ g → dloop block ol op f s ≠ .fuelOut →
      dloop block ol op g s = dloop block ol op f s := by
  intro f
  induction f with
  | zero => intro g s _ hne; exact absurd rfl hne
  | succ n ih =>
      intro g s hle hne
      cases g with
      | zero => omega
      | succ m =>
          unfold dloop at hne ⊢
          cases hstep : dstep block ol op s with
          | next t =>
              rw [hstep] at hne
              exact ih m t (by omega) hne
          | stop r => rfl
          | oobRead => rfl

/-! Helper lemmas: simulation of the validator loop by the decoder loop on
the consumed slice `buffer[startOffset : startOffset + consumed]`. -/

/-- Length of the consumed slice. -/
lemma length_slice {buf : List Nat} {so c : Nat} (hbuf : so + c ≤ buf.length) :
    ((buf.drop so).take c).length = c := by
  simp [List.length_take, List.length_drop]
  omega

/-- One bit-processing step of the validator is matched by one
bit-processing step of the decoder on the consumed slice, emitting the bytes
the validator only counted. -/
lemma vbit_dbit_next {buf : List Nat} {so ol op rem fp lp pp : Nat} {dict : Nat → Nat}
    {di ds fw mask : Nat} {t : VSt} (out : List Nat) {c : Nat}
    (hbuf : so + c ≤ buf.length) (hopc : op ≤ c) (hppc : pp + 2 ≤ c)
    (h : vbitStep buf so ol op rem fp lp pp dict di ds fw mask = .next t) :
    ∃ e, dbitStep ((buf.drop so).take c) ol op fp lp pp dict di out fw mask =
        .next ⟨t.fp, t.lp, t.pp, t.dict, t.di, out ++ e, t.fw, t.mask⟩ ∧
      t.ds = ds + e.length := by
  have hslen : ((buf.drop so).take c).length = c := length_slice hbuf
  unfold vbitStep at h
  unfold dbitStep
  split at h
  · rename_i hbit
    rw [if_pos hbit]
    split at h
    · simp at h
    · rename_i hlp
      rw [if_neg hlp]
      cases hb : buf[so + lp]? with
      | none => rw [hb] at h; simp at h
      | some b =>
          rw [hb] at h
          injection h with h2
          subst h2
          rw [getElem?_slice buf so c lp (by omega), hb]
          exact ⟨[b], rfl, rfl⟩
  · rename_i hbit
    rw [if_neg hbit]
    split at h
    · simp at h
    · rename_i hpp2
      have hguard : ¬ ((buf.drop so).take c).length < pp + 2 := by omega
      rw [if_neg hguard]
      cases hpv : readU16LE buf (so + pp) with
      | none => rw [hpv] at h; simp at h
      | some pv =>
          rw [hpv] at h
          rw [readU16LE_slice buf so c pp (by omega), hpv]
          simp only at h ⊢
          split at h
          · simp at h
          · rename_i hpv4
            injection h with h2
            subst h2
            rw [if_neg hpv4]
            exact ⟨(copyN dict di (pv >>> 4) 0 ((pv &&& 0xF) + 2)).2.2, rfl, rfl⟩

/-- A terminator stop of the validator is matched by a terminator stop of
the decoder on the consumed slice (whose length is exactly the consumed
size). -/
lemma vbit_dbit_term {buf : List Nat} {so ol op rem fp lp pp : Nat} {dict : Nat → Nat}
    {di ds fw mask : Nat} (out : List Nat) {c d : Nat}
    (hbuf : so + c ≤ buf.length)
    (h : vbitStep buf so ol op rem fp lp pp dict di ds fw mask = .stop (.term c d)) :
    dbitStep ((buf.drop so).take c) ol op fp lp pp dict di out fw mask = .stop (.term out) := by
  have hslen : ((buf.drop so).take c).length = c := length_slice hbuf
  have hc : c = pp + 2 := (vbitStep_stop_term h).1
  unfold vbitStep at h
  unfold dbitStep
  split at h
  · rename_i hbit
    rw [if_pos hbit]
    split at h
    · simp at h
    · split at h
      · simp at h
      · simp at h
  · rename_i hbit
    rw [if_neg hbit]
    split at h
    · simp at h
    · rename_i hpp2
      have hguard : ¬ ((buf.drop so).take c).length < pp + 2 := by omega
      rw [if_neg hguard]
      cases hpv : readU16LE buf (so + pp) with
      | none => rw [hpv] at h; simp at h
      | some pv =>
          rw [hpv] at h
          rw [readU16LE_slice buf so c pp (by omega), hpv]
          simp only at h ⊢
          split at h
          · rename_i hpv4
            rw [if_pos hpv4]
          · simp at h

/-- Step simulation, continue case. -/
lemma vstep_dstep_next {buf : List Nat} {so ol op rem : Nat} {s t : VSt}
    (out : List Nat) {c : Nat}
    (hbuf : so + c ≤ buf.length) (holop : ol ≤ op) (hoppp : op ≤ s.pp)
    (hppc : s.pp + 2 ≤ c)
    (h : vstep buf so ol op rem s = .next t) :
    ∃ e, dstep ((buf.drop so).take c) ol op ⟨s.fp, s.lp, s.pp, s.dict, s.di, out, s.fw, s.mask⟩ =
        .next ⟨t.fp, t.lp, t.pp, t.dict, t.di, out ++ e, t.fw, t.mask⟩ ∧
      t.ds = s.ds + e.length := by
  obtain ⟨fp, lp, pp, dict, di, ds, fw, mask⟩ := s
  simp only at hoppp hppc
  unfold vstep at h
  unfold dstep
  simp only at h ⊢
  split at h
  · rename_i hm
    rw [if_pos hm]
    split at h
    · simp at h
    · rename_i hfp
      rw [if_neg hfp]
      cases hw : readU32LE buf (so + fp) with
      | none => rw [hw] at h; simp at h
      | some w =>
          rw [hw] at h
          rw [readU32LE_slice buf so c fp (by omega), hw]
          exact vbit_dbit_next out hbuf (by omega) (by omega) h
  · rename_i hm
    rw [if_neg hm]
    exact vbit_dbit_next out hbuf (by omega) (by omega) h

/-- Step simulation, terminator case. -/
lemma vstep_dstep_term {buf : List Nat} {so ol op rem : Nat} {s : VSt}
    (out : List Nat) {c d : Nat}
    (hbuf : so + c ≤ buf.length) (holop : ol ≤ op) (hoppp : op ≤ s.pp)
    (h : vstep buf so ol op rem s = .stop (.term c d)) :
    dstep ((buf.drop so).take c) ol op ⟨s.fp, s.lp, s.pp, s.dict, s.di, out, s.fw, s.mask⟩ =
      .stop (.term out) := by
  obtain ⟨fp, lp, pp, dict, di, ds, fw, mask⟩ := s
  simp only at hoppp
  unfold vstep at h
  unfold dstep
  simp only at h ⊢
  split at h
  · rename_i hm
    rw [if_pos hm]
    split at h
    · simp at h
    · rename_i hfp
      rw [if_neg hfp]
      cases hw : readU32LE buf (so + fp) with
      | none => rw [hw] at h; simp at h
      | some w =>
          rw [hw] at h
          have hc : c = pp + 2 := (vbitStep_stop_term h).1
          rw [readU32LE_slice buf so c fp (by omega), hw]
          exact vbit_dbit_term out hbuf h
  · rename_i hm
    rw [if_neg hm]
    exact vbit_dbit_term out hbuf h

/-- Loop simulation: a validator run that reaches a terminator with consumed
size `c` and count `d` is matched by a decoder run on the slice of length
`c`, whose emitted output accounts exactly for the counted bytes. -/
lemma vloop_to_dloop {buf : List Nat} {so ol op rem : Nat}
    (holop : ol ≤ op) (hrem : so + rem ≤ buf.length) :
    ∀ fuel (s : VSt) (out : List Nat) (c d : Nat),
      op ≤ s.pp → c ≤ rem →
      vloop buf so ol op rem fuel s = .res (.term c d) →
      ∃ outE, dloop ((buf.drop so).take c) ol op fuel
          ⟨s.fp, s.lp, s.pp, s.dict, s.di, out, s.fw, s.mask⟩ = .res (.term outE) ∧
        outE.length + s.ds = out.length + d := by
  intro fuel
  induction fuel with
  | zero => intro s out c d _ _ h; simp [vloop] at h
  | succ n ih =>
      intro s out c d hoppp hcrem h
      have hppc : s.pp + 2 ≤ c := (vloop_term_bounds _ s c d h).1
      have hbuf : so + c ≤ buf.length := by omega
      unfold vloop at h
      unfold dloop
      cases hstep : vstep buf so ol op rem s with
      | next t =>
          rw [hstep] at h
          obtain ⟨e, hd, hds⟩ := vstep_dstep_next out hbuf holop hoppp hppc hstep
          rw [hd]
          have hpp' : op ≤ t.pp := le_trans hoppp (vstep_next_pp hstep)
          obtain ⟨outE, hE, hlenE⟩ := ih t (out ++ e) c d hpp' hcrem h
          refine ⟨outE, hE, ?_⟩
          have : (out ++ e).length = out.length + e.length := by simp
          omega
      | stop r =>
          rw [hstep] at h
          simp only [LoopRes.res.injEq] at h
          subst h
          have hterm := vstep_dstep_term out hbuf holop hoppp hstep
          rw [hterm]
          have hd : d = s.ds := (vstep_stop_term hstep).2.1
          exact ⟨out, rfl, by omega⟩
      | oobRead => rw [hstep] at h; simp at h

/-- From a validator run that reached a terminator, the decoder on the
consumed slice succeeds and emits exactly the counted number of bytes. -/
lemma term_decode {buf : List Nat} {so ol op c d : Nat}
    (hlen : so + 12 ≤ buf.length)
    (hol : readU32LE buf so = some ol) (hop : readU32LE buf (so + 4) = some op)
    (h12 : 12 ≤ ol) (holop : ol ≤ op) (hoprem : op ≤ buf.length - so)
    (hrun : vRun buf so ol op = .res (.term c d)) :
    ∃ out, decompressLZSSBlock ((buf.drop so).take c) = .ok out ∧ out.length = d := by
  have hrun' := hrun
  unfold vRun at hrun'
  have hb := vloop_term_bounds _ _ c d hrun'
  simp only at hb
  obtain ⟨hopc, hcrem⟩ := hb
  have hbuf : so + c ≤ buf.length := by omega
  have hslen : ((buf.drop so).take c).length = c := length_slice hbuf
  obtain ⟨outE, hdl, hL⟩ :=
    vloop_to_dloop holop (by omega) ((buf.length + 5) * 2147483648)
      ⟨8, ol, op, fun _ => 0, 1, 0, 0, 0⟩ [] c d (by simp) hcrem hrun'
  simp only at hdl
  have hne : dloop ((buf.drop so).take c) ol op ((c + 5) * 2147483648)
      ⟨8, ol, op, fun _ => 0, 1, [], 0, 0⟩ ≠ .fuelOut := by
    apply dloop_no_fuelOut
    unfold dMeasure
    simp only
    omega
  have hmono := dloop_mono ((c + 5) * 2147483648) ((buf.length + 5) * 2147483648)
    ⟨8, ol, op, fun _ => 0, 1, [], 0, 0⟩ (by omega) hne
  rw [hmono] at hdl
  refine ⟨outE, ?_, by simpa using hL⟩
  unfold decompressLZSSBlock
  rw [if_neg (by omega)]
  have h0 : readU32LE ((buf.drop so).take c) 0 = some ol := by
    rw [readU32LE_slice buf so c 0 (by omega)]
    simpa using hol
  have h4 : readU32LE ((buf.drop so).take c) 4 = some op := by
    rw [readU32LE_slice buf so c 4 (by omega)]
    exact hop
  rw [h0, h4]
  simp only
  rw [if_neg (by omega)]
  unfold dRun
  rw [hslen, hdl]

/-- Claim C3: whenever the validator reports success at an offset with
consumed size `c` and decompressed size `d`, the decoder on the slice
`buffer[offset : offset + c]` succeeds (it does not fail with a malformed
block) and its output length equals `d`. -/
theorem c3_validator_decoder_agree (buf : List Nat) (so : Nat)
    (r : DecompressValidationResult)
    (h : validateAndGetConsumedSize buf so = some r) (hs : r.success = true) :
    ∃ out, decompressLZSSBlock ((buf.drop so).take r.consumedBytes) = .ok out ∧
      out.length = r.decompressedSize := by
  obtain ⟨ol, op, hlen, hol, hop, h12, holop, hoprem, hrun, _, _⟩ := validate_success h hs
  exact term_decode hlen hol hop h12 holop hoprem hrun

/-- Claim C3 witness: the minimal valid block of `buf14`. -/
theorem c3_witness :
    ∃ out, decompressLZSSBlock ((buf14.drop 0).take 14) = .ok out ∧ out.length = 0 :=
  c3_validator_decoder_agree buf14 0 ⟨true, 14, 0⟩ (by decide) rfl

/-! Helper lemmas: sorting and deduplication of the scanner. -/

lemma mem_insertSorted {r x : ScanResult} :
    ∀ {l : List ScanResult}, x ∈ insertSorted r l ↔ x = r ∨ x ∈ l := by
  intro l
  induction l with
  | nil => simp [insertSorted]
  | cons y ys ih =>
      unfold insertSorted
      by_cases hle : scanResultLE r y = true
      · rw [if_pos hle]; simp
      · rw [if_neg hle]
        simp only [List.mem_cons, ih]
        tauto

lemma mem_sortResults {x : ScanResult} :
    ∀ {l : List ScanResult}, x ∈ sortResults l ↔ x ∈ l := by
  intro l
  induction l with
  | nil => simp [sortResults]
  | cons y ys ih =>
      unfold sortResults
      rw [mem_insertSorted]
      simp [ih]

lemma scanResultLE_trans {a b c : ScanResult}
    (h1 : scanResultLE a b = true) (h2 : scanResultLE b c = true) :
    scanResultLE a c = true := by
  simp only [scanResultLE, decide_eq_true_eq] at h1 h2 ⊢
  omega

lemma scanResultLE_total (a b : ScanResult) :
    scanResultLE a b = true ∨ scanResultLE b a = true := by
  simp only [scanResultLE, decide_eq_true_eq]
  omega

lemma scanResultLE_offset {a b : ScanResult} (h : scanResultLE a b = true) :
    a.offset ≤ b.offset := by
  simp only [scanResultLE, decide_eq_true_eq] at h
  omega

lemma pairwise_insertSorted (r : ScanResult) :
    ∀ {l : List ScanResult}, l.Pairwise (fun a b => scanResultLE a b = true) →
      (insertSorted r l).Pairwise (fun a b => scanResultLE a b = true) := by
  intro l
  induction l with
  | nil => intro _; simp [insertSorted]
  | cons y ys ih =>
      intro h
      rw [List.pairwise_cons] at h
      unfold insertSorted
      by_cases hle : scanResultLE r y = true
      · rw [if_pos hle]
        rw [List.pairwise_cons]
        refine ⟨?_, List.pairwise_cons.mpr h⟩
        intro b hb
        rcases List.mem_cons.mp hb with hb | hb
        · rw [hb]; exact hle
        · exact scanResultLE_trans hle (h.1 b hb)
      · rw [if_neg hle]
        rw [List.pairwise_cons]
        refine ⟨?_, ih h.2⟩
        intro b hb
        rcases mem_insertSorted.mp hb with hb | hb
        · rw [hb]
          rcases scanResultLE_total r y with hry | hyr
          · exact absurd hry hle
          · exact hyr
        · exact h.1 b hb

lemma pairwise_sortResults (l : List ScanResult) :
    (sortResults l).Pairwise (fun a b => scanResultLE a b = true) := by
  induction l with
  | nil => simp [sortResults]
  | cons y ys ih => exact pairwise_insertSorted y ih

lemma dedup_mem :
    ∀ (rs : List ScanResult) (kept : List (Nat × Nat)) (final : List ScanResult)
      (x : ScanResult), x ∈ dedup rs kept final → x ∈ final ∨ x ∈ rs := by
  intro rs
  induction rs with
  | nil => intro kept final x h; exact Or.inl h
  | cons r rest ih =>
      intro kept final x h
      unfold dedup at h
      by_cases ho : overlapsKept r.offset (r.offset + r.consumedSize) kept = true
      · rw [if_pos ho] at h
        rcases ih _ _ _ h with hf | hr
        · exact Or.inl hf
        · exact Or.inr (List.mem_cons_of_mem r hr)
      · rw [if_neg ho] at h
        rcases ih _ _ _ h with hf | hr
        · rcases List.mem_append.mp hf with hf | hf
          · exact Or.inl hf
          · simp at hf
            exact Or.inr (by simp [hf])
        · exact Or.inr (List.mem_cons_of_mem r hr)

/-- The greedy pass keeps an ordered, pairwise-separated result when fed a
list of positive-size candidates sorted by offset. -/
lemma dedup_good :
    ∀ (rs : List ScanResult) (kept : List (Nat × Nat)) (final : List ScanResult),
      (∀ r ∈ rs, 0 < r.consumedSize) →
      (∀ f ∈ final, 0 < f.consumedSize) →
      kept = final.map (fun f => (f.offset, f.offset + f.consumedSize)) →
      final.Pairwise (fun a b => a.offset + a.consumedSize ≤ b.offset) →
      (∀ f ∈ final, ∀ r ∈ rs, f.offset ≤ r.offset) →
      rs.Pairwise (fun a b => a.offset ≤ b.offset) →
      (dedup rs kept final).Pairwise (fun a b => a.offset + a.consumedSize ≤ b.offset) := by
  intro rs
  induction rs with
  | nil =>
      intro kept final _ _ _ hp _ _
      simpa [dedup] using hp
  | cons r rest ih =>
      intro kept final hrs hfin hkept hp hcross hsorted
      rw [List.pairwise_cons] at hsorted
      unfold dedup
      by_cases ho : overlapsKept r.offset (r.offset + r.consumedSize) kept = true
      · rw [if_pos ho]
        refine ih kept final (fun x hx => hrs x (List.mem_cons_of_mem r hx)) hfin hkept hp
          (fun f hf x hx => hcross f hf x (List.mem_cons_of_mem r hx)) hsorted.2
      · rw [if_neg ho]
        have hrpos : 0 < r.consumedSize := hrs r (List.mem_cons_self r rest)
        have hnov : ∀ f ∈ final, f.offset + f.consumedSize ≤ r.offset := by
          intro f hf
          have hmemk : (f.offset, f.offset + f.consumedSize) ∈ kept := by
            rw [hkept]
            exact List.mem_map_of_mem _ hf
          have hno : ∀ k ∈ kept,
              r.offset + r.consumedSize ≤ k.1 ∨ k.2 ≤ r.offset := by
            intro k hk
            by_contra hcon
            apply ho
            unfold overlapsKept
            rw [List.any_eq_true]
            exact ⟨k, hk, by simpa using hcon⟩
          rcases hno _ hmemk with hcase | hcase
          · have hfr : f.offset ≤ r.offset := hcross f hf r (List.mem_cons_self r rest)
            simp only at hcase
            omega
          · simpa using hcase
        refine ih _ (final ++ [r]) (fun x hx => hrs x (List.mem_cons_of_mem r hx)) ?_ ?_ ?_ ?_ hsorted.2
        · intro f hf
          rcases List.mem_append.mp hf with hf | hf
          · exact hfin f hf
          · simp at hf
            rw [hf]
            exact hrpos
        · simp [hkept]
        · rw [List.pairwise_append]
          refine ⟨hp, by simp, ?_⟩
          intro f hf x hx
          simp at hx
          rw [hx]
          exact hnov f hf
        · intro f hf x hx
          rcases List.mem_append.mp hf with hf | hf
          · exact hcross f hf x (List.mem_cons_of_mem r hx)
          · simp at hf
            rw [hf]
            exact hsorted.1 x hx

/-- Every element collected by the candidate loop satisfies any property
that holds of each recorded success. -/
lemma scanLoop_acc {buf : List Nat} {n bound : Nat} (P : ScanResult → Prop)
    (hP : ∀ off r, validateAndGetConsumedSize buf off = some r → r.success = true →
      0 < r.consumedBytes → P ⟨off, r.consumedBytes, r.decompressedSize⟩) :
    ∀ fuel off acc rs, (∀ x ∈ acc, P x) →
      scanLoop buf n bound fuel off acc = .res rs → ∀ x ∈ rs, P x := by
  intro fuel
  induction fuel with
  | zero => intro off acc rs _ h; simp [scanLoop] at h
  | succ m ih =>
      intro off acc rs hacc h
      unfold scanLoop at h
      by_cases hb : bound < off
      · rw [if_pos hb] at h
        simp only [LoopRes.res.injEq] at h
        rw [← h]
        exact hacc
      · rw [if_neg hb] at h
        cases h1 : readU32LE buf off with
        | none => rw [h1] at h; simp at h
        | some ol =>
            rw [h1] at h
            cases h2 : readU32LE buf (off + 4) with
            | none => rw [h2] at h; simp at h
            | some orf =>
                rw [h2] at h
                simp only at h
                by_cases hpre : 8 ≤ ol ∧ ol ≤ n - off ∧ 8 ≤ orf ∧ orf ≤ n - off ∧ ol ≤ orf
                · rw [if_pos hpre] at h
                  cases h3 : validateAndGetConsumedSize buf off with
                  | none => rw [h3] at h; simp at h
                  | some r =>
                      rw [h3] at h
                      simp only at h
                      by_cases hs : r.success = true ∧ 0 < r.consumedBytes
                      · rw [if_pos hs] at h
                        refine ih _ _ _ ?_ h
                        intro x hx
                        rcases List.mem_append.mp hx with hx | hx
                        · exact hacc x hx
                        · simp at hx
                          rw [hx]
                          exact hP off r h3 hs.1 hs.2
                      · rw [if_neg hs] at h
                        exact ih _ _ _ hacc h
                · rw [if_neg hpre] at h
                  exact ih _ _ _ hacc h

/-- Inversion of a successful scan. -/
lemma scanContainer_inv {buf : List Nat} {res : List ScanResult}
    (h : scanContainer buf = some res) :
    ∃ results, scanLoop buf buf.length
        ((buf.length + (18446744073709551616 - 12)) % 18446744073709551616)
        (buf.length / 4 + 2) 0 [] = .res results ∧
      res = dedup (sortResults results) [] [] := by
  unfold scanContainer at h
  cases hs : scanLoop buf buf.length
      ((buf.length + (18446744073709551616 - 12)) % 18446744073709551616)
      (buf.length / 4 + 2) 0 [] with
  | res results =>
      rw [hs] at h
      simp only [Option.some.injEq] at h
      exact ⟨results, rfl, h.symm⟩
  | oob => rw [hs] at h; simp at h
  | fuelOut => rw [hs] at h; simp at h

/-- Claim C9: a successful validation denotes an interval that lies inside
the buffer and consumes at least 14 bytes; consequently every descriptor in
a scan result denotes a valid, in-bounds, non-empty slice. -/
theorem c9_accepted_blocks_in_bounds (buf : List Nat) :
    (∀ so r, validateAndGetConsumedSize buf so = some r → r.success = true →
      so + r.consumedBytes ≤ buf.length ∧ 14 ≤ r.consumedBytes) ∧
    (∀ res x, scanContainer buf = some res → x ∈ res →
      x.offset + x.consumedSize ≤ buf.length ∧ 14 ≤ x.consumedSize) := by
  have core : ∀ so r, validateAndGetConsumedSize buf so = some r → r.success = true →
      so + r.consumedBytes ≤ buf.length ∧ 14 ≤ r.consumedBytes := by
    intro so r h hs
    obtain ⟨ol, op, hlen, hol, hop, h12, holop, hoprem, hrun, hopc, hcrem⟩ :=
      validate_success h hs
    omega
  refine ⟨core, ?_⟩
  intro res x hscan hmem
  obtain ⟨results, hloop, hres⟩ := scanContainer_inv hscan
  rw [hres] at hmem
  have hx : x ∈ results := by
    rcases dedup_mem _ _ _ x hmem with hx | hx
    · exact absurd hx (List.not_mem_nil x)
    · exact mem_sortResults.mp hx
  refine scanLoop_acc
    (P := fun y => y.offset + y.consumedSize ≤ buf.length ∧ 14 ≤ y.consumedSize)
    ?_ _ 0 [] results (by simp) hloop x hx
  intro off r hval hsucc hpos
  exact core off r hval hsucc

/-- Claim C9 witness: the minimal valid block of `buf14`. -/
theorem c9_witness : 0 + 14 ≤ buf14.length ∧ 14 ≤ 14 :=
  (c9_accepted_blocks_in_bounds buf14).1 0 ⟨true, 14, 0⟩ (by decide) rfl

/-- Claim C6: any two descriptors of a scan result are in strictly
increasing offset order and their half-open intervals are disjoint. -/
theorem c6_scan_disjoint_increasing (buf : List Nat) (res : List ScanResult)
    (h : scanContainer buf = some res) :
    res.Pairwise (fun a b => a.offset < b.offset ∧
      (a.offset + a.consumedSize ≤ b.offset ∨ b.offset + b.consumedSize ≤ a.offset)) := by
  obtain ⟨results, hloop, hres⟩ := scanContainer_inv h
  have hpos : ∀ x ∈ results, 0 < x.consumedSize := by
    refine scanLoop_acc (P := fun y => 0 < y.consumedSize) ?_ _ 0 [] results (by simp) hloop
    intro off r _ _ hpos
    exact hpos
  have hsorted : (sortResults results).Pairwise (fun a b => a.offset ≤ b.offset) :=
    (pairwise_sortResults results).imp (fun hab => scanResultLE_offset hab)
  have hgood := dedup_good (sortResults results) [] []
    (fun x hx => hpos x (mem_sortResults.mp hx)) (by simp) (by simp) (by simp)
    (by simp) hsorted
  rw [hres]
  refine List.Pairwise.imp_of_mem ?_ hgood
  intro a b ha hb hab
  have hpa : 0 < a.consumedSize := by
    rcases dedup_mem _ _ _ a ha with hx | hx
    · exact absurd hx (List.not_mem_nil a)
    · exact hpos a (mem_sortResults.mp hx)
  exact ⟨by omega, Or.inl hab⟩

/-- Claim C6 witness: the scan result of `buf14`. -/
theorem c6_witness :
    List.Pairwise (fun (a b : ScanResult) => a.offset < b.offset ∧
      (a.offset + a.consumedSize ≤ b.offset ∨ b.offset + b.consumedSize ≤ a.offset))
      [⟨0, 14, 0⟩] :=
  c6_scan_disjoint_increasing buf14 [⟨0, 14, 0⟩] (by decide)

/-- Claim C4: under the validator's pre-check, the validator succeeds
exactly when its loop reads an explicit zero-offset terminator pair; any
exhaustion of the flag, literal or pair stream yields `ok = false` with zero
sizes; and on success the consumed size is the position right after the
terminator and the decompressed size counts exactly the bytes the decoder
would emit on the consumed slice. -/
theorem c4_terminator_semantics (buf : List Nat) (so ol op : Nat)
    (h12 : so + 12 ≤ buf.length)
    (hol : readU32LE buf so = some ol) (hop : readU32LE buf (so + 4) = some op)
    (h8 : 8 ≤ ol) (holop : ol ≤ op) (hrem : op ≤ buf.length - so) :
    (∀ c d, vRun buf so ol op = .res (.term c d) →
      validateAndGetConsumedSize buf so = some ⟨true, c, d⟩ ∧
      ∃ out, decompressLZSSBlock ((buf.drop so).take c) = .ok out ∧ out.length = d) ∧
    ((vRun buf so ol op = .res .flagsEnd ∨ vRun buf so ol op = .res .litEnd ∨
        vRun buf so ol op = .res .pairEnd) →
      validateAndGetConsumedSize buf so = some ⟨false, 0, 0⟩) ∧
    (∀ r, validateAndGetConsumedSize buf so = some r →
      (r.success = true ↔ ∃ c d, vRun buf so ol op = .res (.term c d))) := by
  have hval : validateAndGetConsumedSize buf so =
      match vRun buf so ol op with
      | .res (.term c d) => some ⟨true, c, d⟩
      | .res _ => some ⟨false, 0, 0⟩
      | .oob => none
      | .fuelOut => none := by
    have hmle := Nat.mod_le (so + 12) 18446744073709551616
    unfold validateAndGetConsumedSize
    rw [if_neg (by omega), hol, hop]
    simp only
    rw [if_pos (by omega)]
  refine ⟨?_, ?_, ?_⟩
  · intro c d hrun
    constructor
    · rw [hval, hrun]
    · exact term_decode h12 hol hop (vRun_term_ol hrun) holop hrem hrun
  · intro hrun
    rcases hrun with hrun | hrun | hrun <;> rw [hval, hrun]
  · intro r hr
    rw [hval] at hr
    cases hrun : vRun buf so ol op with
    | res v =>
        rw [hrun] at hr
        cases v with
        | term c d =>
            simp only [Option.some.injEq] at hr
            rw [← hr]
            simp only [true_iff]
            exact ⟨c, d, rfl⟩
        | flagsEnd =>
            simp only [Option.some.injEq] at hr
            rw [← hr]
            constructor
            · intro hfalse; simp at hfalse
            · rintro ⟨c, d, hterm⟩
              simp at hterm
        | litEnd =>
            simp only [Option.some.injEq] at hr
            rw [← hr]
            constructor
            · intro hfalse; simp at hfalse
            · rintro ⟨c, d, hterm⟩
              simp at hterm
        | pairEnd =>
            simp only [Option.some.injEq] at hr
            rw [← hr]
            constructor
            · intro hfalse; simp at hfalse
            · rintro ⟨c, d, hterm⟩
              simp at hterm
    | oob => rw [hrun] at hr; simp at hr
    | fuelOut => rw [hrun] at hr; simp at hr

/-- Claim C4 witness: `buf14` at offset 0 with header words 12 and 12. -/
theorem c4_witness :
    validateAndGetConsumedSize buf14 0 = some ⟨true, 14, 0⟩ ∧
    ∃ out, decompressLZSSBlock ((buf14.drop 0).take 14) = .ok out ∧ out.length = 0 :=
  (c4_terminator_semantics buf14 0 12 12 (by decide) (by decide) (by decide)
    (by decide) (by decide) (by decide)).1 14 0 (by decide)

/-- Claim C5: the decoder throws a malformed-block error exactly when the
block is shorter than 12 bytes, a header offset is out of range
(`off_literals ≥ length`, `off_pairs ≥ length`, `off_literals < 8`), the
literal stream is exhausted at a literal-flagged bit, or fewer than 2 bytes
remain at a reference-flagged bit. -/
theorem c5_decoder_error_conditions (block : List Nat) :
    (∃ msg, decompressLZSSBlock block = .malformed msg) ↔
    (block.length < 12 ∨
      ∃ ol op, readU32LE block 0 = some ol ∧ readU32LE block 4 = some op ∧
        (block.length ≤ ol ∨ block.length ≤ op ∨ ol < 8 ∨
          dRun block ol op = .res .litErr ∨ dRun block ol op = .res .pairErr)) := by
  constructor
  · rintro ⟨msg, h⟩
    unfold decompressLZSSBlock at h
    by_cases hlen : block.length < 12
    · exact Or.inl hlen
    · rw [if_neg hlen] at h
      obtain ⟨ol, hol⟩ := readU32LE_isSome block 0 (by omega)
      obtain ⟨op, hop⟩ := readU32LE_isSome block 4 (by omega)
      rw [hol, hop] at h
      simp only at h
      refine Or.inr ⟨ol, op, hol, hop, ?_⟩
      by_cases hhdr : block.length ≤ ol ∨ block.length ≤ op ∨ ol < 8
      · tauto
      · rw [if_neg hhdr] at h
        cases hrun : dRun block ol op with
        | res v =>
            rw [hrun] at h
            cases v with
            | flagsEnd diag out => simp at h
            | litErr => tauto
            | pairErr => tauto
            | term out => simp at h
        | oob => rw [hrun] at h; simp at h
        | fuelOut => rw [hrun] at h; simp at h
  · intro hcase
    unfold decompressLZSSBlock
    by_cases hlen : block.length < 12
    · rw [if_pos hlen]
      exact ⟨_, rfl⟩
    · rw [if_neg hlen]
      rcases hcase with hcase | ⟨ol, op, hol, hop, hrest⟩
      · omega
      · rw [hol, hop]
        simp only
        by_cases hhdr : block.length ≤ ol ∨ block.length ≤ op ∨ ol < 8
        · rw [if_pos hhdr]
          exact ⟨_, rfl⟩
        · rw [if_neg hhdr]
          rcases hrest with hr | hr | hr | hr | hr
          · omega
          · omega
          · omega
          · rw [hr]; exact ⟨_, rfl⟩
          · rw [hr]; exact ⟨_, rfl⟩

/-- Claim C8: when the mask is exhausted and a flag-word reload would read at
or past `off_literals`, the decoder stops cleanly with the output collected
so far (recording, as the diagnostic flag, whether the flag cursor stopped
strictly before `off_literals`), and the decode as a whole returns that
output successfully rather than failing. -/
theorem c8_clean_flag_exhaustion :
    (∀ (block : List Nat) (ol op : Nat) (s : DSt), s.mask = 0 → ol < s.fp + 4 →
      dstep block ol op s = .stop (.flagsEnd (decide (s.fp < ol)) s.out)) ∧
    (∀ (block : List Nat) (ol op : Nat) (diag : Bool) (out : List Nat),
      12 ≤ block.length →
      readU32LE block 0 = some ol → readU32LE block 4 = some op →
      ol < block.length → op < block.length → 8 ≤ ol →
      dRun block ol op = .res (.flagsEnd diag out) →
      decompressLZSSBlock block = .ok out) := by
  constructor
  · intro block ol op s hm hfp
    unfold dstep
    rw [if_pos hm, if_pos hfp]
  · intro block ol op diag out hlen hol hop holl hopl h8 hrun
    unfold decompressLZSSBlock
    rw [if_neg (by omega), hol, hop]
    simp only
    rw [if_neg (by omega), hrun]

/-- Claim C8 witness: one flag-exhaustion step, and the 45-byte block whose
single flag word is consumed exactly (32 literals, no terminator). -/
theorem c8_witness :
    dstep block45 12 44 ⟨12, 44, 44, (fun _ => 0), 1, [], 0, 0⟩ =
      .stop (.flagsEnd (decide ((12 : Nat) < 12)) []) ∧
    decompressLZSSBlock block45 = .ok (List.replicate 32 65) :=
  ⟨c8_clean_flag_exhaustion.1 block45 12 44 ⟨12, 44, 44, (fun _ => 0), 1, [], 0, 0⟩
      rfl (by decide),
    c8_clean_flag_exhaustion.2 block45 12 44 false (List.replicate 32 65) (by decide)
      (by decide) (by decide) (by decide) (by decide) (by decide) (by decide)⟩

/-- Bit masking by `0xFFF` is reduction modulo 4096. -/
lemma land_4095 (x : Nat) : x &&& 4095 = x % 4096 := by
  have h := Nat.and_pow_two_sub_one_eq_mod x 12
  norm_num at h
  exact h

/-- Bit masking by `0xF` is reduction modulo 16. -/
lemma land_15 (x : Nat) : x &&& 15 = x % 16 := by
  have h := Nat.and_pow_two_sub_one_eq_mod x 4
  norm_num at h
  exact h

/-- The decoder's copy loop agrees with the spec-worded dictionary copy. -/
lemma copyN_eq_spec :
    ∀ (n : Nat) (dict : Nat → Nat) (di off i : Nat),
      copyN dict di off i n = specDictCopy dict di off i n := by
  intro n
  induction n with
  | zero => intro dict di off i; rfl
  | succ m ih =>
      intro dict di off i
      unfold copyN specDictCopy
      simp only [land_4095]
      rw [ih]
      unfold dwrite
      rfl

/-- Claim C7: the sliding dictionary is the 4096-byte all-zero buffer with
write cursor starting at 1; a pair code packs a 12-bit dictionary offset in
its high bits and a length of (low 4 bits) + 2; every emitted byte is
written at the cursor which advances modulo 4096; and copies proceed
byte-by-byte, writing each byte back before the next read, so overlapping
self-referential copies see bytes produced earlier in the same copy
(`block17`), and fresh blocks read zeros from the untouched dictionary
(`blockZ`). -/
theorem c7_dictionary_semantics :
    (∀ (dict : Nat → Nat) (di off i n : Nat),
      copyN dict di off i n = specDictCopy dict di off i n) ∧
    (∀ pv : Nat, pv < 65536 →
      pv >>> 4 < 4096 ∧ pv >>> 4 = pv / 16 ∧ (pv &&& 0xF) + 2 = pv % 16 + 2) ∧
    (∀ (dict : Nat → Nat) (di b : Nat),
      dwrite dict di b = (fun j => if j = di then b else dict j) ∧
      (di + 1) &&& 0xFFF = (di + 1) % 4096) ∧
    (∀ (block : List Nat) (ol op : Nat),
      dRun block ol op = dloop block ol op ((block.length + 5) * 2147483648)
        ⟨8, ol, op, (fun _ => 0), 1, [], 0, 0⟩) ∧
    decompressLZSSBlock block17 = .ok [65, 65, 65, 65] ∧
    decompressLZSSBlock blockZ = .ok [0, 0] := by
  refine ⟨fun dict di off i n => copyN_eq_spec n dict di off i, ?_, ?_, ?_, by decide, by decide⟩
  · intro pv hpv
    have h4 : pv >>> 4 = pv / 16 := by
      rw [Nat.shiftRight_eq_div_pow]
    refine ⟨by omega, h4, by rw [land_15]⟩
  · intro dict di b
    exact ⟨rfl, land_4095 (di + 1)⟩
  · intro block ol op
    rfl

/-- Claim C7 witness: the packing facts at the concrete pair code `0x1234`. -/
theorem c7_witness :
    (4660 : Nat) >>> 4 < 4096 ∧ (4660 : Nat) >>> 4 = 4660 / 16 ∧
      ((4660 : Nat) &&& 0xF) + 2 = 4660 % 16 + 2 :=
  c7_dictionary_semantics.2.1 4660 (by decide)

/-- Claim C1 (defect): for buffers shorter than 12 bytes the scan loop bound
`n - 12` wraps around in `size_t`, the loop is entered, and the header reads
run out of bounds (`oob`), contradicting the claimed empty result with no
out-of-bounds access. -/
theorem c1_short_buffer_reads_out_of_bounds :
    (scanLoop [] 0 ((0 + (18446744073709551616 - 12)) % 18446744073709551616)
        (0 / 4 + 2) 0 [] = .oob ∧ scanContainer [] = none) ∧
    (scanLoop (List.replicate 8 0) 8
        ((8 + (18446744073709551616 - 12)) % 18446744073709551616)
        (8 / 4 + 2) 0 [] = .oob ∧ scanContainer (List.replicate 8 0) = none) ∧
    (scanLoop (List.replicate 11 0) 11
        ((11 + (18446744073709551616 - 12)) % 18446744073709551616)
        (11 / 4 + 2) 0 [] = .oob ∧ scanContainer (List.replicate 11 0) = none) := by
  refine ⟨⟨by decide, by decide⟩, ⟨by decide, by decide⟩, ⟨by decide, by decide⟩⟩

/-- Claim C10: there is a buffer (and offset) on which the validator
succeeds with decompressed size 0 — the first processed flag bit selects a
reference whose pair code is the zero-offset terminator — and the scanner
accepts this block into its result, since its acceptance test requires only
a positive consumed size. -/
theorem c10_zero_output_block_accepted :
    validateAndGetConsumedSize buf14 0 = some ⟨true, 14, 0⟩ ∧
    scanContainer buf14 = some [⟨0, 14, 0⟩] := by
  exact ⟨by decide, by decide⟩

end Tenchu
